import Mathlib

/-!
# Verification of the dxminer table-rendering engine

A shallow embedding of the table renderer in `src/dxminer/_formatter.py`
together with the style registry in `src/dxminer/config.py`, and proofs of
the specified properties of column-width resolution, greedy word wrapping,
table assembly, style resolution, and column-chunk pagination.

Python strings are modelled as Lean `String` (`len` is `String.length`,
which counts code points exactly as Python's `len` does).  Python's
`str.join`, `str.split(sep)` for a one-character separator, string
repetition `s * n` and the format specifier `f"{s:<{w}}"` are given
direct recursive models below.
-/

namespace DXMiner

/-- Python `sep.join(parts)`: parts concatenated with `sep` between
consecutive elements; the empty list yields `""`. -/
def joinWith (sep : String) : List String → String
  | [] => ""
  | [s] => s
  | s :: t :: rest => s ++ sep ++ joinWith sep (t :: rest)

/-- Python string repetition `s * n` (for `n ≤ 0` Python yields `""`;
subtraction on `Nat` at call sites matches this). -/
def pyRepeat (s : String) : Nat → String
  | 0 => ""
  | n + 1 => s ++ pyRepeat s n

/-- Python `f"{s:<{w}}"`: left-justify `s` in a field of `w` characters,
padding on the right with spaces; a longer `s` is left unchanged. -/
def ljust (s : String) (w : Nat) : String :=
  s ++ pyRepeat " " (w - s.length)

/-- Python `s.upper()`, modelled per character.  This agrees with Python on
ASCII input; the only strings the source upper-cases are style names, which
are compared against the ASCII registry keys and the ASCII sentinel
`"STATS"`. -/
def pyUpper (s : String) : String :=
  String.mk (s.data.map Char.toUpper)

/-- Auxiliary for `splitOnChar`: scans the character list, `acc` holds the
(reversed) characters of the chunk currently being accumulated. -/
def splitOnCharAux (c : Char) : List Char → List Char → List (List Char)
  | [], acc => [acc.reverse]
  | d :: rest, acc =>
    if d = c then acc.reverse :: splitOnCharAux c rest []
    else splitOnCharAux c rest (d :: acc)

/-- Python `s.split(c)` for a single-character separator `c`: splits at every
occurrence of `c`, keeping empty chunks (so `"".split(' ') = [""]` and
`"a  b".split(' ') = ["a", "", "b"]`, exactly as in Python). -/
def splitOnChar (c : Char) (s : String) : List String :=
  (splitOnCharAux c s.data []).map String.mk

/-- The loop body of `TableFormatter._wrap_text` (src/dxminer/_formatter.py,
lines 143-153): greedily accumulate words onto `cur` while
`sum(len(w) for w in current_line) + len(current_line) + len(word) <= width`,
otherwise flush `' '.join(current_line)` and start a new line with the word;
finally flush the last (non-empty) `current_line`. -/
def wrapAux (width : Nat) : List String → List String → List String
  | cur, [] => if cur.isEmpty then [] else [joinWith " " cur]
  | cur, w :: ws =>
    if (cur.map String.length).sum + cur.length + w.length ≤ width then
      wrapAux width (cur ++ [w]) ws
    else
      joinWith " " cur :: wrapAux width [w] ws

/-- `TableFormatter._wrap_text(text, width)`: the empty string is first
replaced by a single space, then the text is split on `' '` and wrapped
greedily. -/
def wrapText (text : String) (width : Nat) : List String :=
  let text' := if text = "" then " " else text
  wrapAux width [] (splitOnChar ' ' text')

/-- `TableFormatter.adjust_special_col_widths`: for each column index `i`,
start from the header length, fold `max` with the length of `row[i]` over all
rows, and cap with `min max_length max_col_width`.  (The loop overwrites every
entry of the initial `[col_width] * len(headers)` array, so the default column
width never survives.)  Out-of-range `row[i]` raises in Python; `getD i ""`
coincides with it on well-formed rows, which every theorem below assumes. -/
def adjustSpecialColWidths (headers : List String) (reportData : List (List String))
    (maxColWidth : Nat) : List Nat :=
  (List.range headers.length).map fun i =>
    min (reportData.foldl (fun m row => max m ((row.getD i "").length))
          ((headers.getD i "").length))
        maxColWidth

/-- The loop of `ConfigurableSplitTableFormatter.split_columns` over the
enumerated column list: `cur` is the chunk being built, `curWidth` the running
width total.  Cost of column `(i, w)` is `w + 3`; the column joins the current
chunk when `curWidth + cost ≤ maxTotalWidth`, otherwise the chunk is pushed
and a new chunk `[i]` starts with `curWidth = cost`.  The final non-empty
chunk is pushed at the end. -/
def splitColsAux (maxTotalWidth : Nat) : List (Nat × Nat) → Nat → List Nat → List (List Nat)
  | [], _, cur => if cur.isEmpty then [] else [cur]
  | p :: rest, curWidth, cur =>
    let cost := p.2 + 3
    if curWidth + cost ≤ maxTotalWidth then
      splitColsAux maxTotalWidth rest (curWidth + cost) (cur ++ [p.1])
    else
      cur :: splitColsAux maxTotalWidth rest cost [p.1]

/-- `ConfigurableSplitTableFormatter.split_columns`: the Python loop
enumerates `self.headers` and reads `self.col_widths[i]`; the two lists always
have the same length, so enumerating the width list itself is equivalent. -/
def splitColumns (colWidths : List Nat) (maxTotalWidth : Nat) : List (List Nat) :=
  splitColsAux maxTotalWidth colWidths.enum 0 []

/-! ## The style registry (src/dxminer/config.py) -/

/-- One entry of the `STYLES` dictionary.  Every registered style defines all
twelve keys (`BOTTOM_SEP_CHAR` appears in no style, so its `.get` default is
taken unconditionally and it is not a field here). -/
structure StyleCfg where
  COL_WIDTH : Nat
  MAX_COL_WIDTH : Nat
  INNER_SEP_CHAR : String
  HEADER_SEP_CHAR : String
  OUTER_SIDE_CHAR : String
  INNER_VERTICAL_CHAR : String
  TOP_LEFT_CHAR : String
  TOP_RIGHT_CHAR : String
  BOTTOM_LEFT_CHAR : String
  BOTTOM_RIGHT_CHAR : String
  TOP_JOIN_CHAR : String
  BOTTOM_JOIN_CHAR : String
deriving DecidableEq

/-- The `"DEFAULT"` entry of `STYLES`. -/
def defaultStyle : StyleCfg :=
  { COL_WIDTH := 25, MAX_COL_WIDTH := 32,
    INNER_SEP_CHAR := "─", HEADER_SEP_CHAR := "─",
    OUTER_SIDE_CHAR := "|", INNER_VERTICAL_CHAR := "|",
    TOP_LEFT_CHAR := "┌", TOP_RIGHT_CHAR := "┐",
    BOTTOM_LEFT_CHAR := "└", BOTTOM_RIGHT_CHAR := "┘",
    TOP_JOIN_CHAR := "┬", BOTTOM_JOIN_CHAR := "┴" }

/-- The `STYLES` dictionary of src/dxminer/config.py as an association list
(keyed by the upper-case style names used in the source). -/
def STYLES : List (String × StyleCfg) :=
  [("DEFAULT", defaultStyle),
   ("STARS",
    { COL_WIDTH := 25, MAX_COL_WIDTH := 32,
      INNER_SEP_CHAR := "*", HEADER_SEP_CHAR := "*",
      OUTER_SIDE_CHAR := "*", INNER_VERTICAL_CHAR := "*",
      TOP_LEFT_CHAR := "*", TOP_RIGHT_CHAR := "*",
      BOTTOM_LEFT_CHAR := "*", BOTTOM_RIGHT_CHAR := "*",
      TOP_JOIN_CHAR := "*", BOTTOM_JOIN_CHAR := "*" }),
   ("SPSS",
    { COL_WIDTH := 25, MAX_COL_WIDTH := 32,
      INNER_SEP_CHAR := "=", HEADER_SEP_CHAR := "=",
      OUTER_SIDE_CHAR := "|", INNER_VERTICAL_CHAR := "|",
      TOP_LEFT_CHAR := "+", TOP_RIGHT_CHAR := "+",
      BOTTOM_LEFT_CHAR := "+", BOTTOM_RIGHT_CHAR := "+",
      TOP_JOIN_CHAR := "+", BOTTOM_JOIN_CHAR := "+" }),
   ("SAS",
    { COL_WIDTH := 25, MAX_COL_WIDTH := 32,
      INNER_SEP_CHAR := "-", HEADER_SEP_CHAR := "-",
      OUTER_SIDE_CHAR := "|", INNER_VERTICAL_CHAR := "|",
      TOP_LEFT_CHAR := "+", TOP_RIGHT_CHAR := "+",
      BOTTOM_LEFT_CHAR := "+", BOTTOM_RIGHT_CHAR := "+",
      TOP_JOIN_CHAR := "+", BOTTOM_JOIN_CHAR := "+" }),
   ("STATS",
    { COL_WIDTH := 25, MAX_COL_WIDTH := 32,
      INNER_SEP_CHAR := "=", HEADER_SEP_CHAR := "=",
      OUTER_SIDE_CHAR := "|", INNER_VERTICAL_CHAR := "|",
      TOP_LEFT_CHAR := "=", TOP_RIGHT_CHAR := "=",
      BOTTOM_LEFT_CHAR := "=", BOTTOM_RIGHT_CHAR := "=",
      TOP_JOIN_CHAR := "=", BOTTOM_JOIN_CHAR := "=" }),
   ("BOLD_LINES",
    { COL_WIDTH := 25, MAX_COL_WIDTH := 32,
      INNER_SEP_CHAR := "━", HEADER_SEP_CHAR := "━",
      OUTER_SIDE_CHAR := "┃", INNER_VERTICAL_CHAR := "┃",
      TOP_LEFT_CHAR := "┏", TOP_RIGHT_CHAR := "┓",
      BOTTOM_LEFT_CHAR := "┗", BOTTOM_RIGHT_CHAR := "┛",
      TOP_JOIN_CHAR := "┳", BOTTOM_JOIN_CHAR := "┻" }),
   ("DASHED_LINES",
    { COL_WIDTH := 25, MAX_COL_WIDTH := 32,
      INNER_SEP_CHAR := "-", HEADER_SEP_CHAR := "-",
      OUTER_SIDE_CHAR := ":", INNER_VERTICAL_CHAR := ":",
      TOP_LEFT_CHAR := "-", TOP_RIGHT_CHAR := "-",
      BOTTOM_LEFT_CHAR := "-", BOTTOM_RIGHT_CHAR := "-",
      TOP_JOIN_CHAR := "-", BOTTOM_JOIN_CHAR := "-" }),
   ("DOUBLE_LINES",
    { COL_WIDTH := 25, MAX_COL_WIDTH := 32,
      INNER_SEP_CHAR := "═", HEADER_SEP_CHAR := "═",
      OUTER_SIDE_CHAR := "║", INNER_VERTICAL_CHAR := "║",
      TOP_LEFT_CHAR := "╔", TOP_RIGHT_CHAR := "╗",
      BOTTOM_LEFT_CHAR := "╚", BOTTOM_RIGHT_CHAR := "╝",
      TOP_JOIN_CHAR := "╦", BOTTOM_JOIN_CHAR := "╩" }),
   ("THIN_LINES",
    { COL_WIDTH := 25, MAX_COL_WIDTH := 32,
      INNER_SEP_CHAR := "╌", HEADER_SEP_CHAR := "╌",
      OUTER_SIDE_CHAR := "│", INNER_VERTICAL_CHAR := "│",
      TOP_LEFT_CHAR := "┌", TOP_RIGHT_CHAR := "┐",
      BOTTOM_LEFT_CHAR := "└", BOTTOM_RIGHT_CHAR := "┘",
      TOP_JOIN_CHAR := "┬", BOTTOM_JOIN_CHAR := "┴" }),
   ("SLANTED_LINES",
    { COL_WIDTH := 25, MAX_COL_WIDTH := 32,
      INNER_SEP_CHAR := "/", HEADER_SEP_CHAR := "/",
      OUTER_SIDE_CHAR := "\\", INNER_VERTICAL_CHAR := "/",
      TOP_LEFT_CHAR := "/", TOP_RIGHT_CHAR := "\\",
      BOTTOM_LEFT_CHAR := "\\", BOTTOM_RIGHT_CHAR := "/",
      TOP_JOIN_CHAR := "/", BOTTOM_JOIN_CHAR := "\\" }),
   ("BLOCK_STYLE",
    { COL_WIDTH := 25, MAX_COL_WIDTH := 32,
      INNER_SEP_CHAR := "█", HEADER_SEP_CHAR := "█",
      OUTER_SIDE_CHAR := "█", INNER_VERTICAL_CHAR := "█",
      TOP_LEFT_CHAR := "█", TOP_RIGHT_CHAR := "█",
      BOTTOM_LEFT_CHAR := "█", BOTTOM_RIGHT_CHAR := "█",
      TOP_JOIN_CHAR := "█", BOTTOM_JOIN_CHAR := "█" })]

/-- `STYLES.get(style_name.upper(), STYLES["DEFAULT"])` in
`ConfigurableTableFormatter.__init__`: case-insensitive lookup that silently
falls back to the `"DEFAULT"` entry.  Total: it never fails. -/
def resolveStyle (styleName : String) : StyleCfg :=
  (STYLES.lookup (pyUpper styleName)).getD defaultStyle

/-- `ConfigurableTableFormatter._validate_char`: an empty glyph is replaced
by a single space, except that the `STATS` style may keep empty glyphs.
(Dynamic dispatch makes `TableFormatter.__init__` call this override for
every configurable formatter instance.) -/
def validateCharStyled (styleName c : String) : String :=
  if pyUpper styleName = "STATS" ∧ c = "" then ""
  else if c = "" then " " else c

/-! ## Formatter state (the attributes set by the constructors) -/

/-- The attributes of a `ConfigurableTableFormatter` instance that the
rendering methods read. -/
structure Fmt where
  headers : List String
  reportData : List (List String)
  colWidths : List Nat
  maxColWidth : Nat
  innerSepChar : String
  headerSepChar : String
  outerSideChar : String
  innerVerticalChar : String
  topRule : Bool
  innerHorizontal : Bool
  outerSides : Bool
  innerVerticals : Bool
  topLeftChar : String
  topRightChar : String
  bottomLeftChar : String
  bottomRightChar : String
  topJoinChar : String
  bottomJoinChar : String
  bottomSepChar : String
  styleName : String

/-- `ConfigurableTableFormatter.__init__` composed with the base
`TableFormatter.__init__` it delegates to: resolve the style, validate the
separator glyphs (the outer side char is validated twice, once at the call
site and once inside the base constructor), compute the column widths, and
overwrite the corner/join glyphs with the raw style values (the base
constructor's validated module defaults never survive, and
`header_sep_char` is re-assigned unvalidated at the end). -/
def mkConfigurable (styleName : String) (headers : List String)
    (reportData : List (List String)) : Fmt :=
  let style := resolveStyle styleName
  let v := validateCharStyled styleName
  { headers := headers
    reportData := reportData
    colWidths := adjustSpecialColWidths headers reportData style.MAX_COL_WIDTH
    maxColWidth := style.MAX_COL_WIDTH
    innerSepChar := v style.INNER_SEP_CHAR
    headerSepChar := style.HEADER_SEP_CHAR
    outerSideChar := v (v style.OUTER_SIDE_CHAR)
    innerVerticalChar := v style.INNER_VERTICAL_CHAR
    topRule := true
    innerHorizontal := false
    outerSides := true
    innerVerticals := true
    topLeftChar := style.TOP_LEFT_CHAR
    topRightChar := style.TOP_RIGHT_CHAR
    bottomLeftChar := style.BOTTOM_LEFT_CHAR
    bottomRightChar := style.BOTTOM_RIGHT_CHAR
    topJoinChar := style.TOP_JOIN_CHAR
    bottomJoinChar := style.BOTTOM_JOIN_CHAR
    bottomSepChar := "─"
    styleName := styleName }

/-! ## Rendering (the `ConfigurableTableFormatter` methods) -/

/-- `ConfigurableTableFormatter.format_custom_top_rule`. -/
def formatCustomTopRule (f : Fmt) : String :=
  f.topLeftChar
    ++ joinWith f.topJoinChar (f.colWidths.map fun w => pyRepeat f.headerSepChar (w + 2))
    ++ f.topRightChar

/-- `ConfigurableTableFormatter.format_custom_bottom_rule`. -/
def formatCustomBottomRule (f : Fmt) : String :=
  f.bottomLeftChar
    ++ joinWith f.bottomJoinChar (f.colWidths.map fun w => pyRepeat f.innerSepChar (w + 2))
    ++ f.bottomRightChar

/-- `TableFormatter.format_header` (inherited unchanged by the configurable
formatters). -/
def formatHeader (f : Fmt) : String :=
  let headerParts := List.zipWith ljust f.headers f.colWidths
  let header :=
    if f.innerVerticals then joinWith (" " ++ f.innerVerticalChar ++ " ") headerParts
    else joinWith " " headerParts
  if f.outerSides then f.outerSideChar ++ " " ++ header ++ " " ++ f.outerSideChar
  else " " ++ header ++ " "

/-- `ConfigurableTableFormatter.format_separator`: a single run of the
separator character across the whole table width (`sum + 3*C - 1`, or
`sum + 3*C + 1` for the STATS style; with zero columns Python repeats a
string `-1` times yielding `""`, which truncated `Nat` subtraction also
gives). -/
def ctFormatSeparator (f : Fmt) (separatorChar : String) (isInner : Bool) : String :=
  let totalWidth :=
    if pyUpper f.styleName = "STATS" then f.colWidths.sum + f.colWidths.length * 3 + 1
    else f.colWidths.sum + f.colWidths.length * 3 - 1
  let separatorLine := pyRepeat separatorChar totalWidth
  if isInner ∧ ¬ f.outerSides then separatorLine
  else if f.outerSides then f.outerSideChar ++ separatorLine ++ f.outerSideChar
  else separatorLine

/-- `TableFormatter.format_row` (inherited unchanged): wrap every cell to its
column width, emit `max` wrap-line-count physical lines, padding shorter cells
with blank fields.  (Python's `max(...)` raises on a zero-cell row; the
`foldl max 0` here agrees with it on every non-empty row.) -/
def formatRow (f : Fmt) (rowData : List String) : String :=
  let wrappedColumns := List.zipWith (fun cell w => wrapText cell w) rowData f.colWidths
  let maxLines := (wrappedColumns.map List.length).foldl max 0
  let result := (List.range maxLines).map fun lineIdx =>
    let rowParts := List.zipWith
      (fun wrappedLines w =>
        if lineIdx < wrappedLines.length then ljust (wrappedLines.getD lineIdx "") w
        else ljust "" w)
      wrappedColumns f.colWidths
    let row :=
      if f.innerVerticals then joinWith (" " ++ f.innerVerticalChar ++ " ") rowParts
      else joinWith " " rowParts
    if f.outerSides then f.outerSideChar ++ " " ++ row ++ " " ++ f.outerSideChar
    else " " ++ row ++ " "
  joinWith "\n" result

/-- The row loop of `ConfigurableTableFormatter.format_table`: each row line,
followed by an inner separator when `inner_horizontal` is set and the row is
not the last. -/
def rowsSection (f : Fmt) : List String :=
  (f.reportData.enum.map fun p =>
    if f.innerHorizontal ∧ p.1 < f.reportData.length - 1 then
      [formatRow f p.2, ctFormatSeparator f f.innerSepChar true]
    else
      [formatRow f p.2]).flatten

/-- `ConfigurableTableFormatter.format_table`: top rule, header, header
separator, the rows section, bottom rule, joined with `"\n"`. -/
def ctFormatTable (f : Fmt) : String :=
  joinWith "\n"
    ([formatCustomTopRule f, formatHeader f, ctFormatSeparator f f.headerSepChar false]
      ++ rowsSection f ++ [formatCustomBottomRule f])

/-! ## The column-splitting paginator (`ConfigurableSplitTableFormatter`) -/

/-- The attributes of a `ConfigurableSplitTableFormatter` instance: the
configurable-formatter state plus the width budget. -/
structure SplitFmt where
  base : Fmt
  maxTotalWidth : Nat

/-- `ConfigurableSplitTableFormatter.__init__`. -/
def mkSplitFormatter (styleName : String) (headers : List String)
    (reportData : List (List String)) (maxTotalWidth : Nat) : SplitFmt :=
  { base := mkConfigurable styleName headers reportData
    maxTotalWidth := maxTotalWidth }

/-- `ConfigurableSplitTableFormatter.split_columns` on the instance state. -/
def splitColumnsF (sf : SplitFmt) : List (List Nat) :=
  splitColumns sf.base.colWidths sf.maxTotalWidth

/-- `ConfigurableSplitTableFormatter.format_chunk`: restrict headers and rows
to the chunk's column indices and render them with a freshly constructed
`ConfigurableTableFormatter` of the same style. -/
def formatChunk (sf : SplitFmt) (chunk : List Nat) : String :=
  let chunkHeaders := chunk.map fun i => sf.base.headers.getD i ""
  let chunkData := sf.base.reportData.map fun row => chunk.map fun i => row.getD i ""
  ctFormatTable (mkConfigurable sf.base.styleName chunkHeaders chunkData)

/-- `ConfigurableSplitTableFormatter.format_split_table` (which
`format_table` delegates to): render every chunk and join the sub-tables
with `"\n"`. -/
def formatSplitTable (sf : SplitFmt) : String :=
  joinWith "\n" ((splitColumnsF sf).map (formatChunk sf))

/-! ## Derived notions used in the statements -/

/-- The number of newline-separated lines of a rendered string. -/
def tableLines (s : String) : List String := splitOnChar '\n' s

/-- The words of a string: the non-empty chunks of its split on `' '`.
Two strings have the same `wordsOf` exactly when they agree up to
whitespace run lengths. -/
def wordsOf (s : String) : List String :=
  (splitOnChar ' ' s).filter (fun w => w ≠ "")

/-- All glyph fields of a style record are newline-free (every registered
style satisfies this; it underlies the line-count guarantees). -/
def StyleGlyphsOK (st : StyleCfg) : Prop :=
  '\n' ∉ st.INNER_SEP_CHAR.data ∧ '\n' ∉ st.HEADER_SEP_CHAR.data
  ∧ '\n' ∉ st.OUTER_SIDE_CHAR.data ∧ '\n' ∉ st.INNER_VERTICAL_CHAR.data
  ∧ '\n' ∉ st.TOP_LEFT_CHAR.data ∧ '\n' ∉ st.TOP_RIGHT_CHAR.data
  ∧ '\n' ∉ st.BOTTOM_LEFT_CHAR.data ∧ '\n' ∉ st.BOTTOM_RIGHT_CHAR.data
  ∧ '\n' ∉ st.TOP_JOIN_CHAR.data ∧ '\n' ∉ st.BOTTOM_JOIN_CHAR.data

/-- All glyph fields of a formatter state are newline-free. -/
def FmtGlyphsOK (f : Fmt) : Prop :=
  '\n' ∉ f.innerSepChar.data ∧ '\n' ∉ f.headerSepChar.data
  ∧ '\n' ∉ f.outerSideChar.data ∧ '\n' ∉ f.innerVerticalChar.data
  ∧ '\n' ∉ f.topLeftChar.data ∧ '\n' ∉ f.topRightChar.data
  ∧ '\n' ∉ f.bottomLeftChar.data ∧ '\n' ∉ f.bottomRightChar.data
  ∧ '\n' ∉ f.topJoinChar.data ∧ '\n' ∉ f.bottomJoinChar.data

/-! ## Lemmas about the string helpers -/

theorem mk_data (s : String) : String.mk s.data = s := rfl

theorem joinWith_cons (sep s : String) (l : List String) (h : l ≠ []) :
    joinWith sep (s :: l) = s ++ sep ++ joinWith sep l := by
  cases l with
  | nil => exact absurd rfl h
  | cons t rest => rfl

theorem splitOnCharAux_ne_nil (c : Char) (l acc : List Char) :
    splitOnCharAux c l acc ≠ [] := by
  induction l generalizing acc with
  | nil => simp [splitOnCharAux]
  | cons d rest ih =>
    simp only [splitOnCharAux]
    split
    · simp
    · exact ih _

theorem splitOnCharAux_append (c : Char) (l r acc : List Char) :
    splitOnCharAux c (l ++ c :: r) acc
      = splitOnCharAux c l acc ++ splitOnCharAux c r [] := by
  induction l generalizing acc with
  | nil => simp [splitOnCharAux]
  | cons d rest ih =>
    simp only [List.cons_append, splitOnCharAux]
    split
    · simp [ih]
    · exact ih _

theorem splitOnCharAux_of_not_mem (c : Char) (l acc : List Char) (h : c ∉ l) :
    splitOnCharAux c l acc = [acc.reverse ++ l] := by
  induction l generalizing acc with
  | nil => simp [splitOnCharAux]
  | cons d rest ih =>
    have hd : ¬ d = c := fun hdc => h (hdc ▸ List.mem_cons_self d rest)
    have hr : c ∉ rest := fun hm => h (List.mem_cons_of_mem _ hm)
    simp only [splitOnCharAux, if_neg hd, ih _ hr]
    simp

theorem length_splitOnCharAux (c : Char) (l acc : List Char) :
    (splitOnCharAux c l acc).length = l.count c + 1 := by
  induction l generalizing acc with
  | nil => simp [splitOnCharAux]
  | cons d rest ih =>
    simp only [splitOnCharAux, List.count_cons]
    split
    · rename_i hd; simp [hd, ih]
    · rename_i hd; simp [hd, ih]

theorem not_mem_of_mem_splitOnCharAux (c : Char) (l acc : List Char) (hacc : c ∉ acc) :
    ∀ w ∈ splitOnCharAux c l acc, c ∉ w := by
  induction l generalizing acc with
  | nil =>
    intro w hw
    simp only [splitOnCharAux, List.mem_singleton] at hw
    subst hw
    simpa using hacc
  | cons d rest ih =>
    intro w hw
    simp only [splitOnCharAux] at hw
    split at hw
    · rcases List.mem_cons.mp hw with h1 | h2
      · subst h1; simpa using hacc
      · exact ih [] (by simp) w h2
    · rename_i hd
      refine ih (d :: acc) ?_ w hw
      intro hmem
      rcases List.mem_cons.mp hmem with h | h
      · exact hd h.symm
      · exact hacc h

theorem splitOnChar_ne_nil (c : Char) (s : String) : splitOnChar c s ≠ [] := by
  unfold splitOnChar
  intro h
  exact splitOnCharAux_ne_nil c s.data [] (by simpa using h)

theorem splitOnChar_of_not_mem {c : Char} {s : String} (h : c ∉ s.data) :
    splitOnChar c s = [s] := by
  unfold splitOnChar
  rw [splitOnCharAux_of_not_mem c s.data [] h]
  simp [mk_data]

theorem length_splitOnChar (c : Char) (s : String) :
    (splitOnChar c s).length = s.data.count c + 1 := by
  unfold splitOnChar
  simp [length_splitOnCharAux]

theorem not_mem_data_of_mem_splitOnChar {c : Char} {s : String} :
    ∀ w ∈ splitOnChar c s, c ∉ w.data := by
  intro w hw
  unfold splitOnChar at hw
  obtain ⟨ch, hch, rfl⟩ := List.mem_map.mp hw
  exact not_mem_of_mem_splitOnCharAux c s.data [] (by simp) ch hch

theorem splitOnChar_joinWith (c : Char) (sep : String) (hsep : sep.data = [c]) :
    ∀ L : List String, L ≠ [] →
      splitOnChar c (joinWith sep L) = (L.map (splitOnChar c)).flatten := by
  intro L
  induction L with
  | nil => intro h; exact absurd rfl h
  | cons s L' ih =>
    intro _
    cases L' with
    | nil => simp [joinWith]
    | cons t rest =>
      rw [joinWith_cons _ _ _ (by simp)]
      have hdata : (s ++ sep ++ joinWith sep (t :: rest)).data
          = s.data ++ c :: (joinWith sep (t :: rest)).data := by
        rw [String.data_append, String.data_append, hsep]
        simp
      show (splitOnCharAux c (s ++ sep ++ joinWith sep (t :: rest)).data []).map String.mk = _
      rw [hdata, splitOnCharAux_append, List.map_append]
      show splitOnChar c s ++ splitOnChar c (joinWith sep (t :: rest))
        = (List.map (splitOnChar c) (s :: t :: rest)).flatten
      rw [ih (by simp)]
      simp

/-! ## Lemmas about the greedy word wrapper -/

theorem wrapAux_eq_chunks (width : Nat) (ws : List String) :
    ∀ cur : List String, ∃ chunks : List (List String),
      wrapAux width cur ws = chunks.map (joinWith " ") ∧ chunks.flatten = cur ++ ws := by
  induction ws with
  | nil =>
    intro cur
    by_cases h : cur.isEmpty
    · exact ⟨[], by simp [wrapAux, h], by simp [List.isEmpty_iff.mp h]⟩
    · exact ⟨[cur], by simp [wrapAux, h], by simp⟩
  | cons w ws ih =>
    intro cur
    simp only [wrapAux]
    split
    · obtain ⟨chunks, h1, h2⟩ := ih (cur ++ [w])
      exact ⟨chunks, h1, by simp [h2]⟩
    · obtain ⟨chunks, h1, h2⟩ := ih [w]
      exact ⟨cur :: chunks, by simp [h1], by simp [h2]⟩

theorem mem_wrapAux_self (width : Nat) (word : String) (hw : width < word.length)
    (ws : List String) : word ∈ wrapAux width [word] ws := by
  cases ws with
  | nil => simp [wrapAux, joinWith]
  | cons w' ws' =>
    simp only [wrapAux]
    rw [if_neg (by simp; omega)]
    have : joinWith " " [word] = word := rfl
    rw [this]
    exact List.mem_cons_self _ _

theorem mem_wrapAux_of_long (width : Nat) (word : String) (hw : width < word.length) :
    ∀ (ws cur : List String), word ∈ ws → word ∈ wrapAux width cur ws := by
  intro ws
  induction ws with
  | nil => intro cur h; simp at h
  | cons w' ws' ih =>
    intro cur hmem
    rcases List.mem_cons.mp hmem with h | h
    · subst h
      simp only [wrapAux]
      rw [if_neg (by simp; omega)]
      exact List.mem_cons_of_mem _ (mem_wrapAux_self width word hw ws')
    · simp only [wrapAux]
      split
      · exact ih _ h
      · exact List.mem_cons_of_mem _ (ih _ h)

/-! ## Lemmas about the chunking loop -/

theorem flatten_splitColsAux (maxW : Nat) (l : List (Nat × Nat)) :
    ∀ (curW : Nat) (cur : List Nat),
      (splitColsAux maxW l curW cur).flatten = cur ++ l.map Prod.fst := by
  induction l with
  | nil =>
    intro curW cur
    simp only [splitColsAux, List.map_nil, List.append_nil]
    split
    · rename_i h; simp [List.isEmpty_iff.mp h]
    · simp
  | cons p rest ih =>
    intro curW cur
    simp only [splitColsAux]
    split
    · rw [ih]; simp
    · simp [ih]

theorem getD_of_mem_enum {l : List Nat} {p : Nat × Nat} (h : p ∈ l.enum) :
    l.getD p.1 0 = p.2 := by
  obtain ⟨k, hk, hkp⟩ := List.getElem_of_mem h
  rw [List.getElem_enum] at hkp
  subst hkp
  have hk' : k < l.length := by simpa [List.enum_length] using hk
  simpa using List.getD_eq_getElem l 0 hk'

theorem chunk_cost_le (maxW : Nat) (g : Nat → Nat) (l : List (Nat × Nat)) :
    ∀ (curW : Nat) (cur : List Nat),
      (∀ p ∈ l, g p.1 = p.2 + 3) →
      (cur.map g).sum = curW →
      (2 ≤ cur.length → curW ≤ maxW) →
      ∀ ch ∈ splitColsAux maxW l curW cur, 2 ≤ ch.length → (ch.map g).sum ≤ maxW := by
  induction l with
  | nil =>
    intro curW cur _ hsum hinv ch hch hlen
    simp only [splitColsAux] at hch
    split at hch
    · simp at hch
    · rw [List.mem_singleton] at hch
      subst hch
      exact hsum ▸ hinv hlen
  | cons p rest ih =>
    intro curW cur hg hsum hinv ch hch hlen
    simp only [splitColsAux] at hch
    split at hch
    · rename_i hfit
      refine ih _ _ (fun q hq => hg q (List.mem_cons_of_mem _ hq)) ?_ (fun _ => hfit) ch hch hlen
      rw [List.map_append, List.sum_append, hsum]
      simp [hg p (List.mem_cons_self _ _)]
    · rcases List.mem_cons.mp hch with h | h
      · subst h
        exact hsum ▸ hinv hlen
      · refine ih _ _ (fun q hq => hg q (List.mem_cons_of_mem _ hq)) ?_ ?_ ch h hlen
        · simp [hg p (List.mem_cons_self _ _)]
        · intro h2; simp at h2

theorem mem_splitColsAux_of_cur (maxW i curW : Nat) (hbig : maxW < curW)
    (l : List (Nat × Nat)) : [i] ∈ splitColsAux maxW l curW [i] := by
  cases l with
  | nil => simp [splitColsAux]
  | cons p rest =>
    simp only [splitColsAux]
    rw [if_neg (by omega)]
    exact List.mem_cons_self _ _

theorem singleton_mem_splitColsAux (maxW w i : Nat) (hbig : maxW < w + 3)
    (l : List (Nat × Nat)) :
    ∀ (curW : Nat) (cur : List Nat), (i, w) ∈ l → [i] ∈ splitColsAux maxW l curW cur := by
  induction l with
  | nil => intro _ _ h; simp at h
  | cons p rest ih =>
    intro curW cur hmem
    rcases List.mem_cons.mp hmem with h | h
    · subst p
      simp only [splitColsAux]
      rw [if_neg (by simp; omega)]
      exact List.mem_cons_of_mem _ (mem_splitColsAux_of_cur maxW i (w + 3) (by omega) rest)
    · simp only [splitColsAux]
      split
      · exact ih _ _ h
      · exact List.mem_cons_of_mem _ (ih _ _ h)

theorem splitColsAux_all_fit (maxW : Nat) (l : List (Nat × Nat)) :
    ∀ (curW : Nat) (cur : List Nat),
      curW + (l.map fun p => p.2 + 3).sum ≤ maxW → cur ≠ [] ∨ l ≠ [] →
      splitColsAux maxW l curW cur = [cur ++ l.map Prod.fst] := by
  induction l with
  | nil =>
    intro curW cur _ hne
    have hcur : cur ≠ [] := by
      rcases hne with h | h
      · exact h
      · exact absurd rfl h
    simp only [splitColsAux, List.map_nil, List.append_nil]
    rw [if_neg (by simpa [List.isEmpty_iff] using hcur)]
  | cons p rest ih =>
    intro curW cur hfit _
    have hsum : (p.2 + 3) + (rest.map fun q => q.2 + 3).sum
        = ((p :: rest).map fun q => q.2 + 3).sum := by simp
    simp only [splitColsAux]
    rw [if_pos (by rw [← hsum] at hfit; omega)]
    rw [ih _ _ (by rw [← hsum] at hfit; omega) (Or.inl (by simp))]
    simp

/-! ## C3: pagination loses, duplicates and reorders no column -/

theorem length_adjustSpecialColWidths (headers : List String)
    (reportData : List (List String)) (maxColWidth : Nat) :
    (adjustSpecialColWidths headers reportData maxColWidth).length = headers.length := by
  simp [adjustSpecialColWidths]

/-- C3: concatenating the column-index chunks produced by
`ConfigurableSplitTableFormatter.split_columns` (on any style, headers, data
and width budget) yields exactly `0, 1, ..., C-1` in order: no column is
dropped, duplicated or reordered. -/
theorem splitColumns_flatten_eq_range (styleName : String) (headers : List String)
    (reportData : List (List String)) (maxTotalWidth : Nat) :
    (splitColumnsF (mkSplitFormatter styleName headers reportData maxTotalWidth)).flatten
      = List.range headers.length := by
  show (splitColsAux maxTotalWidth
      (adjustSpecialColWidths headers reportData (resolveStyle styleName).MAX_COL_WIDTH).enum
      0 []).flatten = _
  rw [flatten_splitColsAux, List.enum_map_fst, length_adjustSpecialColWidths]
  rfl

/-! ## C4: greedy chunking respects the width budget -/

/-- C4: every chunk produced by `split_columns` holding two or more columns
has total cost `Σ (width[i] + 3) ≤ max_total_width`, and a column whose own
cost exceeds the budget still becomes its own (singleton) chunk. -/
theorem splitColumns_greedy (colWidths : List Nat) (maxTotalWidth : Nat) :
    (∀ ch ∈ splitColumns colWidths maxTotalWidth, 2 ≤ ch.length →
        (ch.map fun i => colWidths.getD i 0 + 3).sum ≤ maxTotalWidth)
    ∧ (∀ i, i < colWidths.length → maxTotalWidth < colWidths.getD i 0 + 3 →
        [i] ∈ splitColumns colWidths maxTotalWidth) := by
  constructor
  · intro ch hch hlen
    refine chunk_cost_le maxTotalWidth (fun i => colWidths.getD i 0 + 3)
      colWidths.enum 0 [] ?_ rfl ?_ ch hch hlen
    · intro p hp
      show colWidths.getD p.1 0 + 3 = p.2 + 3
      rw [getD_of_mem_enum hp]
    · intro h; simp at h
  · intro i hi hbig
    refine singleton_mem_splitColsAux _ _ _ hbig _ 0 [] ?_
    have hlen : i < colWidths.enum.length := by simpa [List.enum_length] using hi
    have := List.getElem_enum colWidths i hlen
    rw [List.getD_eq_getElem _ _ hi] at hbig ⊢
    exact this ▸ List.getElem_mem hlen

/-- Witness for `splitColumns_greedy`: widths `[10, 10, 200]` with budget 30
produce chunks `[[0, 1], [2]]`; the two-column chunk costs `26 ≤ 30`, and the
oversized column 2 (cost 203) sits alone in its chunk. -/
theorem splitColumns_greedy_witness :
    (([0, 1].map fun i => [10, 10, 200].getD i 0 + 3).sum ≤ 30)
    ∧ [2] ∈ splitColumns [10, 10, 200] 30 :=
  ⟨(splitColumns_greedy [10, 10, 200] 30).1 [0, 1] (by decide) (by decide),
   (splitColumns_greedy [10, 10, 200] 30).2 2 (by decide) (by decide)⟩

/-! ## C1: resolved column widths -/

theorem foldl_max_eq (l : List Nat) (a : Nat) :
    l.foldl max a = max a (l.foldr max 0) := by
  induction l generalizing a with
  | nil => simp
  | cons x xs ih =>
    simp only [List.foldl_cons, List.foldr_cons, ih (max a x)]
    omega

/-- C1: for every column `i`, the resolved width equals
`min(max_col_width, max(len(headers[i]), max over rows of len(row[i])))`;
with zero rows it is the header length capped at `max_col_width`. -/
theorem adjustSpecialColWidths_spec (headers : List String)
    (reportData : List (List String)) (maxColWidth i : Nat)
    (hC : 1 ≤ headers.length)
    (hrows : ∀ r ∈ reportData, r.length = headers.length)
    (hi : i < headers.length) :
    (adjustSpecialColWidths headers reportData maxColWidth).getD i 0
      = min maxColWidth
          (max ((headers.getD i "").length)
            ((reportData.map fun r => (r.getD i "").length).foldr max 0))
    ∧ (reportData = [] →
        (adjustSpecialColWidths headers reportData maxColWidth).getD i 0
          = min maxColWidth ((headers.getD i "").length)) := by
  have hget : (adjustSpecialColWidths headers reportData maxColWidth).getD i 0
      = min (reportData.foldl (fun m row => max m ((row.getD i "").length))
          ((headers.getD i "").length)) maxColWidth := by
    unfold adjustSpecialColWidths
    rw [List.getD_eq_getElem _ _ (by simpa using hi)]
    simp
  have hfold : reportData.foldl (fun m row => max m ((row.getD i "").length))
        ((headers.getD i "").length)
      = max ((headers.getD i "").length)
          ((reportData.map fun r => (r.getD i "").length).foldr max 0) := by
    rw [← List.foldl_map (fun r => (r.getD i "").length) max reportData]
    exact foldl_max_eq _ _
  constructor
  · rw [hget, hfold, Nat.min_comm]
  · intro h
    subst h
    rw [hget]
    simp [Nat.min_comm]

/-- Witness for `adjustSpecialColWidths_spec` at headers `["ab"]`, one row
`[["abcd"]]`, cap 32, column 0. -/
theorem adjustSpecialColWidths_spec_witness :
    (adjustSpecialColWidths ["ab"] [["abcd"]] 32).getD 0 0
      = min 32 (max (String.length "ab")
          (([["abcd"]].map fun r => ((r.getD 0 "") : String).length).foldr max 0)) :=
  (adjustSpecialColWidths_spec ["ab"] [["abcd"]] 32 0 (by decide)
    (by intro r hr; simp at hr; subst hr; rfl) (by decide)).1

/-! ## C6: style resolution -/

/-- C6: style resolution is case-insensitive (names with the same
upper-casing resolve identically), total, and silently falls back to the
`DEFAULT` style whenever the upper-cased name is not a registered key;
in particular `"not_a_real_style"` resolves to the `DEFAULT` style. -/
theorem resolveStyle_spec :
    (∀ s t : String, pyUpper s = pyUpper t → resolveStyle s = resolveStyle t)
    ∧ (∀ s : String, STYLES.lookup (pyUpper s) = none →
        resolveStyle s = resolveStyle "DEFAULT")
    ∧ resolveStyle "not_a_real_style" = resolveStyle "DEFAULT" := by
  refine ⟨?_, ?_, ?_⟩
  · intro s t h
    unfold resolveStyle
    rw [h]
  · intro s h
    unfold resolveStyle
    rw [h]
    rfl
  · rfl

/-- Witness for `resolveStyle_spec`: the lower-case name `"default"` and the
unregistered name `"zzz"` both resolve to the `DEFAULT` style. -/
theorem resolveStyle_spec_witness :
    resolveStyle "default" = resolveStyle "DEFAULT"
    ∧ resolveStyle "zzz" = resolveStyle "DEFAULT" :=
  ⟨resolveStyle_spec.1 "default" "DEFAULT" (by decide),
   resolveStyle_spec.2.1 "zzz" (by decide)⟩

/-! ## C7: wrapper edge cases -/

theorem wrapText_ne_nil (s : String) (width : Nat) : wrapText s width ≠ [] := by
  obtain ⟨chunks, h1, h2⟩ :=
    wrapAux_eq_chunks width (splitOnChar ' ' (if s = "" then " " else s)) []
  show wrapAux width [] (splitOnChar ' ' (if s = "" then " " else s)) ≠ []
  rw [h1]
  intro hcon
  have hc : chunks = [] := by simpa using hcon
  subst hc
  exact splitOnChar_ne_nil ' ' _ (by simpa using h2.symm)

/-- C7: for width ≥ 1 the wrapper maps the empty string to the single line
`" "`; the output is never empty; and every word of the input longer than the
width appears, whole and unsplit, as one of the output lines. -/
theorem wrapText_edge (s : String) (width : Nat) (hw : 1 ≤ width) :
    wrapText "" width = [" "]
    ∧ wrapText s width ≠ []
    ∧ ∀ word ∈ splitOnChar ' ' s, width < word.length → word ∈ wrapText s width := by
  refine ⟨?_, ?_, ?_⟩
  · show wrapAux width [] (splitOnChar ' ' " ") = [" "]
    have h1 : splitOnChar ' ' " " = ["", ""] := rfl
    rw [h1]
    unfold wrapAux
    rw [if_pos (by simp)]
    unfold wrapAux
    rw [if_pos (by simp; omega)]
    rfl
  · exact wrapText_ne_nil s width
  · intro word hmem hlong
    by_cases hs : s = ""
    · subst hs
      have : word = "" := by
        have h1 : splitOnChar ' ' "" = [""] := rfl
        rw [h1] at hmem
        simpa using hmem
      subst this
      simp at hlong
    · show word ∈ wrapAux width [] (splitOnChar ' ' (if s = "" then " " else s))
      rw [if_neg hs]
      exact mem_wrapAux_of_long width word hlong _ [] hmem

/-- Witness for `wrapText_edge` at width 5 and input
`"hello supercalifragilistic a"`, whose middle word exceeds the width. -/
theorem wrapText_edge_witness :
    wrapText "" 5 = [" "]
    ∧ "supercalifragilistic" ∈ wrapText "hello supercalifragilistic a" 5 :=
  ⟨(wrapText_edge "x" 5 (by decide)).1,
   (wrapText_edge "hello supercalifragilistic a" 5 (by decide)).2.2
     "supercalifragilistic" (by decide) (by decide)⟩

/-! ## C2: wrapping preserves the words of its input -/

theorem flatten_map_singleton {α : Type} (l : List α) :
    (l.map fun a => [a]).flatten = l := by
  induction l with
  | nil => rfl
  | cons a l ih => simp [ih]

theorem splitOnChar_joinWith_space_free (chunk : List String)
    (hch : ∀ w ∈ chunk, ' ' ∉ w.data) (hne : chunk ≠ []) :
    splitOnChar ' ' (joinWith " " chunk) = chunk := by
  rw [splitOnChar_joinWith ' ' " " rfl chunk hne]
  rw [List.map_congr_left fun w hw => splitOnChar_of_not_mem (hch w hw)]
  exact flatten_map_singleton chunk

/-- C2: for every string and width ≥ 1 the wrapper returns a non-empty list
of lines, and re-joining the lines with single spaces yields a string with
exactly the same words in the same order as the input (so the two differ at
most in whitespace run lengths). -/
theorem wrapText_rejoin (s : String) (width : Nat) (hw : 1 ≤ width) :
    wrapText s width ≠ []
    ∧ wordsOf (joinWith " " (wrapText s width)) = wordsOf s := by
  refine ⟨wrapText_ne_nil s width, ?_⟩
  obtain ⟨chunks, h1, h2⟩ :=
    wrapAux_eq_chunks width (splitOnChar ' ' (if s = "" then " " else s)) []
  have hflat : chunks.flatten = splitOnChar ' ' (if s = "" then " " else s) := by
    simpa using h2
  have hlines : wrapText s width = chunks.map (joinWith " ") := h1
  have hchunksne : chunks ≠ [] := by
    intro hcon
    subst hcon
    exact splitOnChar_ne_nil ' ' _ hflat.symm
  have hchw : ∀ ch ∈ chunks, ∀ w ∈ ch, ' ' ∉ w.data := by
    intro ch hch w hwch
    exact not_mem_data_of_mem_splitOnChar w
      (hflat ▸ List.mem_flatten.mpr ⟨ch, hch, hwch⟩)
  rw [hlines]
  unfold wordsOf
  rw [splitOnChar_joinWith ' ' " " rfl _ (by simpa using hchunksne)]
  rw [List.map_map, List.filter_flatten, List.map_map]
  have hper : ∀ ch ∈ chunks,
      ((splitOnChar ' ' ∘ joinWith " ") ch).filter (fun w => w ≠ "")
        = ch.filter (fun w => w ≠ "") := by
    intro ch hch
    by_cases hne : ch = []
    · subst hne; rfl
    · show (splitOnChar ' ' (joinWith " " ch)).filter _ = _
      rw [splitOnChar_joinWith_space_free ch (hchw ch hch) hne]
  have hmapeq :
      List.map ((List.filter fun w => decide (w ≠ "")) ∘ splitOnChar ' ' ∘ joinWith " ") chunks
        = List.map (List.filter fun w => decide (w ≠ "")) chunks := by
    apply List.map_congr_left
    intro ch hch
    exact hper ch hch
  rw [hmapeq, ← List.filter_flatten, hflat]
  by_cases hs : s = ""
  · subst hs; rfl
  · rw [if_neg hs]

/-- Witness for `wrapText_rejoin` at width 5, on an input with a double
space. -/
theorem wrapText_rejoin_witness :
    wrapText "greedy word wrap  example" 5 ≠ []
    ∧ wordsOf (joinWith " " (wrapText "greedy word wrap  example" 5))
        = wordsOf "greedy word wrap  example" :=
  wrapText_rejoin "greedy word wrap  example" 5 (by decide)

/-! ## C8: the concrete DEFAULT-style scenario (corrected) -/

/-- C8 as stated is false on the code: with headers
`["Feature Name", "Total Unique", "Uniqueness %"]`, a single row
`[["A very long feature name", "5", "100.00%"]]` and the DEFAULT style's
`max_col_width = 32`, the resolved width of column 0 is 24 — the string
`"A very long feature name"` has length 24, not 25 — so the conjunction
"width = 25 and the cell wraps onto two lines" fails. -/
theorem c8_scenario_counterexample :
    (adjustSpecialColWidths ["Feature Name", "Total Unique", "Uniqueness %"]
        [["A very long feature name", "5", "100.00%"]] 32).getD 0 0 = 24
    ∧ ¬ ((adjustSpecialColWidths ["Feature Name", "Total Unique", "Uniqueness %"]
          [["A very long feature name", "5", "100.00%"]] 32).getD 0 0 = 25
        ∧ wrapText "A very long feature name"
            ((adjustSpecialColWidths ["Feature Name", "Total Unique", "Uniqueness %"]
              [["A very long feature name", "5", "100.00%"]] 32).getD 0 0)
            = ["A very long feature", "name"]) := by
  decide

/-- C8 amended: in that scenario the width of column 0 is
`min(32, len("A very long feature name")) = 24`, and at that width the cell
occupies exactly one physical line holding the whole text unwrapped. -/
theorem c8_scenario_amended :
    (adjustSpecialColWidths ["Feature Name", "Total Unique", "Uniqueness %"]
        [["A very long feature name", "5", "100.00%"]] 32).getD 0 0
      = min 32 (String.length "A very long feature name")
    ∧ String.length "A very long feature name" = 24
    ∧ wrapText "A very long feature name"
        ((adjustSpecialColWidths ["Feature Name", "Total Unique", "Uniqueness %"]
          [["A very long feature name", "5", "100.00%"]] 32).getD 0 0)
        = ["A very long feature name"] := by
  decide

/-! ## C9: rendering is a deterministic pure function of its inputs -/

/-- C9: the renderer is a total function of (style name, headers, rows,
width budget) alone — the embedding has no other state to read — so
computing the column widths and rendering twice, in one run or two,
produces byte-identical strings. -/
theorem render_deterministic (styleName : String) (headers : List String)
    (reportData : List (List String)) (maxTotalWidth : Nat) :
    ctFormatTable (mkConfigurable styleName headers reportData)
        = ctFormatTable (mkConfigurable styleName headers reportData)
    ∧ formatSplitTable (mkSplitFormatter styleName headers reportData maxTotalWidth)
        = formatSplitTable (mkSplitFormatter styleName headers reportData maxTotalWidth)
    ∧ adjustSpecialColWidths headers reportData maxTotalWidth
        = adjustSpecialColWidths headers reportData maxTotalWidth :=
  ⟨rfl, rfl, rfl⟩

/-! ## Newline-freeness of rendered line fragments -/

theorem not_mem_append {c : Char} {a b : String}
    (ha : c ∉ a.data) (hb : c ∉ b.data) : c ∉ (a ++ b).data := by
  rw [String.data_append]
  simp [ha, hb]

theorem not_mem_pyRepeat {c : Char} {s : String} (h : c ∉ s.data) (n : Nat) :
    c ∉ (pyRepeat s n).data := by
  induction n with
  | zero => simp [pyRepeat]
  | succ n ih => exact not_mem_append h ih

theorem not_mem_joinWith {c : Char} {sep : String} (hsep : c ∉ sep.data) :
    ∀ L : List String, (∀ p ∈ L, c ∉ p.data) → c ∉ (joinWith sep L).data := by
  intro L
  induction L with
  | nil => intro _; simp [joinWith]
  | cons s L' ih =>
    intro h
    cases L' with
    | nil => simpa [joinWith] using h s (by simp)
    | cons t rest =>
      rw [joinWith_cons _ _ _ (by simp)]
      exact not_mem_append (not_mem_append (h s (by simp)) hsep)
        (ih fun p hp => h p (List.mem_cons_of_mem _ hp))

theorem validateCharStyled_not_mem {c : Char} (hc : c ≠ ' ') {styleName s : String}
    (h : c ∉ s.data) : c ∉ (validateCharStyled styleName s).data := by
  unfold validateCharStyled
  split
  · simp
  · split
    · simpa using hc
    · exact h

theorem mem_snd_of_lookup {l : List (String × StyleCfg)} {k : String} {v : StyleCfg}
    (h : l.lookup k = some v) : v ∈ l.map Prod.snd := by
  induction l with
  | nil => simp [List.lookup] at h
  | cons p rest ih =>
    obtain ⟨a, b⟩ := p
    simp only [List.lookup] at h
    split at h
    · cases h
      exact List.mem_cons_self _ _
    · exact List.mem_cons_of_mem _ (ih h)

theorem styles_glyphs_ok : ∀ v ∈ STYLES.map Prod.snd, StyleGlyphsOK v := by
  simp only [StyleGlyphsOK]
  decide

theorem resolveStyle_glyphs_ok (name : String) : StyleGlyphsOK (resolveStyle name) := by
  unfold resolveStyle
  cases h : STYLES.lookup (pyUpper name) with
  | none =>
    show StyleGlyphsOK defaultStyle
    exact styles_glyphs_ok defaultStyle (by decide)
  | some v =>
    show StyleGlyphsOK v
    exact styles_glyphs_ok v (mem_snd_of_lookup h)

theorem mkConfigurable_glyphs_ok (styleName : String) (headers : List String)
    (reportData : List (List String)) :
    FmtGlyphsOK (mkConfigurable styleName headers reportData) := by
  obtain ⟨h1, h2, h3, h4, h5, h6, h7, h8, h9, h10⟩ := resolveStyle_glyphs_ok styleName
  have hnl : ('\n' : Char) ≠ ' ' := by decide
  exact ⟨validateCharStyled_not_mem hnl h1, h2,
    validateCharStyled_not_mem hnl (validateCharStyled_not_mem hnl h3),
    validateCharStyled_not_mem hnl h4, h5, h6, h7, h8, h9, h10⟩

theorem not_mem_formatCustomTopRule {f : Fmt} (hok : FmtGlyphsOK f) :
    '\n' ∉ (formatCustomTopRule f).data := by
  obtain ⟨-, h2, -, -, h5, h6, -, -, h9, -⟩ := hok
  refine not_mem_append (not_mem_append h5 (not_mem_joinWith h9 _ ?_)) h6
  intro p hp
  obtain ⟨w, -, rfl⟩ := List.mem_map.mp hp
  exact not_mem_pyRepeat h2 _

theorem not_mem_formatCustomBottomRule {f : Fmt} (hok : FmtGlyphsOK f) :
    '\n' ∉ (formatCustomBottomRule f).data := by
  obtain ⟨h1, -, -, -, -, -, h7, h8, -, h10⟩ := hok
  refine not_mem_append (not_mem_append h7 (not_mem_joinWith h10 _ ?_)) h8
  intro p hp
  obtain ⟨w, -, rfl⟩ := List.mem_map.mp hp
  exact not_mem_pyRepeat h1 _

theorem not_mem_ctFormatSeparator {f : Fmt} (hok : FmtGlyphsOK f) {sepChar : String}
    (hsep : '\n' ∉ sepChar.data) (isInner : Bool) :
    '\n' ∉ (ctFormatSeparator f sepChar isInner).data := by
  obtain ⟨-, -, h3, -, -, -, -, -, -, -⟩ := hok
  simp only [ctFormatSeparator]
  split
  · exact not_mem_pyRepeat hsep _
  · split
    · exact not_mem_append (not_mem_append h3 (not_mem_pyRepeat hsep _)) h3
    · exact not_mem_pyRepeat hsep _

theorem not_mem_formatHeader {f : Fmt} (hok : FmtGlyphsOK f)
    (hh : ∀ h ∈ f.headers, '\n' ∉ h.data) : '\n' ∉ (formatHeader f).data := by
  obtain ⟨-, -, h3, h4, -, -, -, -, -, -⟩ := hok
  have hsp : ('\n' : Char) ∉ (" " : String).data := by decide
  have hparts : ∀ p ∈ List.zipWith ljust f.headers f.colWidths, '\n' ∉ p.data := by
    intro p hp
    obtain ⟨k, hk, rfl⟩ := List.getElem_of_mem hp
    rw [List.getElem_zipWith]
    exact not_mem_append (hh _ (List.getElem_mem _)) (not_mem_pyRepeat hsp _)
  simp only [formatHeader]
  have hjoin : '\n' ∉ (if f.innerVerticals then
        joinWith (" " ++ f.innerVerticalChar ++ " ") (List.zipWith ljust f.headers f.colWidths)
      else joinWith " " (List.zipWith ljust f.headers f.colWidths)).data := by
    split
    · exact not_mem_joinWith (not_mem_append (not_mem_append hsp h4) hsp) _ hparts
    · exact not_mem_joinWith hsp _ hparts
  split
  · exact not_mem_append (not_mem_append (not_mem_append (not_mem_append h3 hsp) hjoin) hsp) h3
  · exact not_mem_append (not_mem_append hsp hjoin) hsp

/-! ## Line counting and substring infrastructure -/

theorem length_flatten_ge {α : Type} (l : List (List α)) (h : ∀ x ∈ l, x ≠ []) :
    l.length ≤ l.flatten.length := by
  induction l with
  | nil => simp
  | cons x xs ih =>
    simp only [List.flatten_cons, List.length_append, List.length_cons]
    have hx : 1 ≤ x.length := List.length_pos.mpr (h x (by simp))
    have hxs := ih fun y hy => h y (List.mem_cons_of_mem _ hy)
    omega

theorem le_length_splitOnChar_joinWith (L : List String) (hne : L ≠ []) :
    L.length ≤ (splitOnChar '\n' (joinWith "\n" L)).length := by
  rw [splitOnChar_joinWith '\n' "\n" rfl L hne]
  have hlen := length_flatten_ge (L.map (splitOnChar '\n')) ?_
  · simpa using hlen
  · intro x hx
    obtain ⟨s, -, rfl⟩ := List.mem_map.mp hx
    exact splitOnChar_ne_nil '\n' s

theorem exists_around_append_left {p s : String} (a : String)
    (h : ∃ l r : List Char, s.data = l ++ p.data ++ r) :
    ∃ l r : List Char, (a ++ s).data = l ++ p.data ++ r := by
  obtain ⟨l, r, hs⟩ := h
  exact ⟨a.data ++ l, r, by rw [String.data_append, hs]; simp⟩

theorem exists_around_append_right {p s : String} (b : String)
    (h : ∃ l r : List Char, s.data = l ++ p.data ++ r) :
    ∃ l r : List Char, (s ++ b).data = l ++ p.data ++ r := by
  obtain ⟨l, r, hs⟩ := h
  exact ⟨l, r ++ b.data, by rw [String.data_append, hs]; simp⟩

theorem exists_around_of_mem_joinWith (sep : String) {p : String} {L : List String}
    (h : p ∈ L) : ∃ l r : List Char, (joinWith sep L).data = l ++ p.data ++ r := by
  induction L with
  | nil => simp at h
  | cons s L' ih =>
    rcases List.mem_cons.mp h with h1 | h1
    · subst h1
      cases L' with
      | nil => exact ⟨[], [], by simp [joinWith]⟩
      | cons t rest =>
        rw [joinWith_cons _ _ _ (by simp)]
        exact exists_around_append_right _ (exists_around_append_right _ ⟨[], [], by simp⟩)
    · cases L' with
      | nil => simp at h1
      | cons t rest =>
        rw [joinWith_cons _ _ _ (by simp)]
        exact exists_around_append_left _ (ih h1)

theorem header_contained {f : Fmt} (hlen : f.colWidths.length = f.headers.length)
    {h : String} (hmem : h ∈ f.headers) :
    ∃ l r : List Char, (formatHeader f).data = l ++ h.data ++ r := by
  obtain ⟨k, hk, rfl⟩ := List.getElem_of_mem hmem
  have hk2 : k < f.colWidths.length := by omega
  have hkz : k < (List.zipWith ljust f.headers f.colWidths).length := by
    rw [List.length_zipWith, hlen, min_self]
    exact hk
  have hpm : ljust f.headers[k] f.colWidths[k] ∈ List.zipWith ljust f.headers f.colWidths := by
    have hmm := List.getElem_mem hkz
    rwa [List.getElem_zipWith] at hmm
  have hbase : ∃ l r : List Char,
      (ljust f.headers[k] f.colWidths[k]).data = l ++ (f.headers[k]).data ++ r :=
    ⟨[], (pyRepeat " " (f.colWidths[k] - (f.headers[k]).length)).data, by
      show (f.headers[k] ++ pyRepeat " " _).data = _
      rw [String.data_append]
      simp⟩
  have hjoin : ∃ l r : List Char,
      (if f.innerVerticals then
          joinWith (" " ++ f.innerVerticalChar ++ " ")
            (List.zipWith ljust f.headers f.colWidths)
        else joinWith " " (List.zipWith ljust f.headers f.colWidths)).data
        = l ++ (f.headers[k]).data ++ r := by
    obtain ⟨l2, r2, hb⟩ := hbase
    split
    · obtain ⟨l, r, hlr⟩ := exists_around_of_mem_joinWith _ hpm
      exact ⟨l ++ l2, r2 ++ r, by rw [hlr, hb]; simp⟩
    · obtain ⟨l, r, hlr⟩ := exists_around_of_mem_joinWith _ hpm
      exact ⟨l ++ l2, r2 ++ r, by rw [hlr, hb]; simp⟩
  simp only [formatHeader]
  split
  · exact exists_around_append_right _
      (exists_around_append_right _ (exists_around_append_left _ hjoin))
  · exact exists_around_append_right _ (exists_around_append_left _ hjoin)

/-! ## C5: the assembled table -/

/-- C5: every rendered table (any style name, headers with C ≥ 1 columns,
any rows) has at least 4 newline-separated lines; with an empty row list
(and newline-free headers) the output is exactly the four lines top rule,
header line, header separator line, bottom rule — in that order — and the
header line (line index 1) contains every header string. -/
theorem ctFormatTable_lines (styleName : String) (headers : List String)
    (reportData : List (List String)) (hC : 1 ≤ headers.length) :
    4 ≤ (tableLines (ctFormatTable (mkConfigurable styleName headers reportData))).length
    ∧ (reportData = [] → (∀ h ∈ headers, '\n' ∉ h.data) →
        tableLines (ctFormatTable (mkConfigurable styleName headers reportData))
          = [formatCustomTopRule (mkConfigurable styleName headers reportData),
             formatHeader (mkConfigurable styleName headers reportData),
             ctFormatSeparator (mkConfigurable styleName headers reportData)
               (mkConfigurable styleName headers reportData).headerSepChar false,
             formatCustomBottomRule (mkConfigurable styleName headers reportData)]
        ∧ ∀ h ∈ headers, ∃ l r : List Char,
            ((tableLines (ctFormatTable
                (mkConfigurable styleName headers reportData))).getD 1 "").data
              = l ++ h.data ++ r) := by
  constructor
  · show 4 ≤ (splitOnChar '\n' (joinWith "\n" _)).length
    have hge := le_length_splitOnChar_joinWith
      ([formatCustomTopRule (mkConfigurable styleName headers reportData),
        formatHeader (mkConfigurable styleName headers reportData),
        ctFormatSeparator (mkConfigurable styleName headers reportData)
          (mkConfigurable styleName headers reportData).headerSepChar false]
        ++ rowsSection (mkConfigurable styleName headers reportData)
        ++ [formatCustomBottomRule (mkConfigurable styleName headers reportData)])
      (by simp)
    have hlen4 : 4 ≤ ([formatCustomTopRule (mkConfigurable styleName headers reportData),
        formatHeader (mkConfigurable styleName headers reportData),
        ctFormatSeparator (mkConfigurable styleName headers reportData)
          (mkConfigurable styleName headers reportData).headerSepChar false]
        ++ rowsSection (mkConfigurable styleName headers reportData)
        ++ [formatCustomBottomRule (mkConfigurable styleName headers reportData)]).length := by
      simp
    omega
  · intro hrows hh
    subst hrows
    have hempty : rowsSection (mkConfigurable styleName headers []) = [] := rfl
    have hok := mkConfigurable_glyphs_ok styleName headers []
    have hfour : ctFormatTable (mkConfigurable styleName headers [])
        = joinWith "\n"
            [formatCustomTopRule (mkConfigurable styleName headers []),
             formatHeader (mkConfigurable styleName headers []),
             ctFormatSeparator (mkConfigurable styleName headers [])
               (mkConfigurable styleName headers []).headerSepChar false,
             formatCustomBottomRule (mkConfigurable styleName headers [])] := by
      unfold ctFormatTable
      rw [hempty]
      simp
    have hsplit : tableLines (ctFormatTable (mkConfigurable styleName headers []))
        = [formatCustomTopRule (mkConfigurable styleName headers []),
           formatHeader (mkConfigurable styleName headers []),
           ctFormatSeparator (mkConfigurable styleName headers [])
             (mkConfigurable styleName headers []).headerSepChar false,
           formatCustomBottomRule (mkConfigurable styleName headers [])] := by
      rw [hfour]
      unfold tableLines
      rw [splitOnChar_joinWith '\n' "\n" rfl _ (by simp)]
      simp only [List.map_cons, List.map_nil]
      rw [splitOnChar_of_not_mem (not_mem_formatCustomTopRule hok),
          splitOnChar_of_not_mem (not_mem_formatHeader hok hh),
          splitOnChar_of_not_mem (not_mem_ctFormatSeparator hok hok.2.1 false),
          splitOnChar_of_not_mem (not_mem_formatCustomBottomRule hok)]
      rfl
    refine ⟨hsplit, ?_⟩
    intro h hmem
    rw [hsplit]
    show ∃ l r : List Char,
      (formatHeader (mkConfigurable styleName headers [])).data = l ++ h.data ++ r
    exact header_contained (length_adjustSpecialColWidths _ _ _) hmem

/-- Witness for `ctFormatTable_lines`: the spec's concrete scenario
`headers = ["X"]`, `rows = []`, DEFAULT style. -/
theorem ctFormatTable_lines_witness :
    4 ≤ (tableLines (ctFormatTable (mkConfigurable "DEFAULT" ["X"] []))).length
    ∧ ∃ l r : List Char,
        ((tableLines (ctFormatTable (mkConfigurable "DEFAULT" ["X"] []))).getD 1 "").data
          = l ++ ("X" : String).data ++ r :=
  ⟨(ctFormatTable_lines "DEFAULT" ["X"] [] (by decide)).1,
   ((ctFormatTable_lines "DEFAULT" ["X"] [] (by decide)).2 rfl (by decide)).2 "X"
     (by decide)⟩

/-! ## C10: pagination is the identity on tables that fit the budget -/

theorem map_getD_range {α : Type} (l : List α) (d : α) :
    (List.range l.length).map (fun i => l.getD i d) = l := by
  apply List.ext_getElem
  · simp
  · intro n h1 h2
    rw [List.getElem_map, List.getElem_range, List.getD_eq_getElem l d h2]

/-- C10: if the total cost `Σ (width[i] + 3)` of all columns fits within
`max_total_width`, the split formatter's `format_table` returns exactly the
plain `ConfigurableTableFormatter`'s `format_table` for the same style name,
headers and row data. -/
theorem formatSplitTable_of_fits (styleName : String) (headers : List String)
    (reportData : List (List String)) (maxTotalWidth : Nat)
    (hC : headers ≠ [])
    (hrows : ∀ r ∈ reportData, r.length = headers.length)
    (hfit : ((mkSplitFormatter styleName headers reportData maxTotalWidth).base.colWidths.map
        fun w => w + 3).sum ≤ maxTotalWidth) :
    formatSplitTable (mkSplitFormatter styleName headers reportData maxTotalWidth)
      = ctFormatTable (mkConfigurable styleName headers reportData) := by
  have hWlen : (mkSplitFormatter styleName headers reportData maxTotalWidth).base.colWidths.length
      = headers.length := length_adjustSpecialColWidths _ _ _
  have hcost : ((mkSplitFormatter styleName headers reportData
        maxTotalWidth).base.colWidths.enum.map fun p => p.2 + 3).sum
      = ((mkSplitFormatter styleName headers reportData maxTotalWidth).base.colWidths.map
          fun w => w + 3).sum := by
    rw [show ((mkSplitFormatter styleName headers reportData
          maxTotalWidth).base.colWidths.enum.map fun p => p.2 + 3)
        = ((mkSplitFormatter styleName headers reportData
            maxTotalWidth).base.colWidths.enum.map Prod.snd).map (fun w => w + 3) from by
          rw [List.map_map]
          rfl,
      List.enum_map_snd]
  have hchunks : splitColumnsF (mkSplitFormatter styleName headers reportData maxTotalWidth)
      = [List.range headers.length] := by
    show splitColsAux maxTotalWidth
      (mkSplitFormatter styleName headers reportData maxTotalWidth).base.colWidths.enum 0 [] = _
    rw [splitColsAux_all_fit maxTotalWidth _ 0 []
        (by rw [hcost]; simpa using hfit)
        (Or.inr (by
          intro hcon
          have := congrArg List.length hcon
          rw [List.enum_length, hWlen] at this
          exact hC (List.length_eq_zero.mp (by simpa using this)))),
      List.enum_map_fst, hWlen]
    simp
  have hchunkH : (List.range headers.length).map (fun i => headers.getD i "") = headers :=
    map_getD_range headers ""
  have hchunkD : reportData.map
        (fun row => (List.range headers.length).map fun i => row.getD i "")
      = reportData := by
    have hcongr := List.map_congr_left
      (fun row hrow => by
        rw [← hrows row hrow]
        exact map_getD_range row "" :
        ∀ row ∈ reportData,
          (List.range headers.length).map (fun i => row.getD i "") = id row)
    rw [hcongr, List.map_id]
  unfold formatSplitTable
  rw [hchunks]
  show formatChunk (mkSplitFormatter styleName headers reportData maxTotalWidth)
      (List.range headers.length) = _
  unfold formatChunk
  show ctFormatTable (mkConfigurable styleName
      ((List.range headers.length).map fun i => headers.getD i "")
      (reportData.map fun row => (List.range headers.length).map fun i => row.getD i "")) = _
  rw [hchunkH, hchunkD]

/-- Witness for `formatSplitTable_of_fits`: one column `"A"`, one row
`[["x"]]`, DEFAULT style, budget 120. -/
theorem formatSplitTable_of_fits_witness :
    formatSplitTable (mkSplitFormatter "DEFAULT" ["A"] [["x"]] 120)
      = ctFormatTable (mkConfigurable "DEFAULT" ["A"] [["x"]]) :=
  formatSplitTable_of_fits "DEFAULT" ["A"] [["x"]] 120 (by decide)
    (by
      intro r hr
      simp only [List.mem_singleton] at hr
      subst hr
      rfl)
    (by decide)

end DXMiner
